import Mathlib

/-!
Verification of the kaido web generator core against its specification.

The definitions below are shallow embeddings of the TypeScript sources:
* `src/web/src/lib/wasm.ts` (fallback generator, catalogue data),
* `src/web/src/components/CustomConfig.tsx` (feature toggling),
* `src/web/src/components/DownloadButton.tsx` (config panel input sanitizing),
* `src/web/src/pages/Docs.tsx` (wizard serialization and SDK gating),
* the template-slug alias module and the file-tree module.

Aiken code braces inside generated text are written with the escapes
\x7b and \x7d.
-/

/-! ## Data model -/

structure GeneratedFile where
  path : String
  content : String
deriving DecidableEq, Repr

/-- Options record consumed by `generateFallback`; optional string fields model
absent JSON keys, boolean toggles model truthy flags. -/
structure GenOptions where
  «namespace» : Option String
  project_name : Option String
  template : Option String
  time_lock : Bool
  cancellable : Bool
  partial_claim : Bool
deriving DecidableEq, Repr

/-! ## Fallback generator (`wasm.ts`, `generateFallback` and helpers) -/

/-- `generateTypesFile(template, options)` from `wasm.ts`. -/
def generateTypesFile (template : String) (o : GenOptions) : String :=
  if template = "mint" then
    if o.time_lock then
      "pub type MintDatum \x7b\n  admin: ByteArray,\n  deadline: Int,\n\x7d\n\npub type MintRedeemer \x7b\n  Mint\n  Burn\n\x7d\n"
    else
      "pub type MintRedeemer \x7b\n  Mint\n  Burn\n\x7d\n"
  else if template = "vesting" then
    "pub type VestingDatum \x7b\n  owner: ByteArray,\n  beneficiary: ByteArray,\n  deadline: Int,\n  amount: Int,\n\x7d\n\npub type VestingRedeemer \x7b\n  Claim\n"
      ++ (if o.cancellable then "  Cancel\n" else "") ++ "\x7d\n"
  else if template = "escrow" then
    "pub type EscrowDatum \x7b\n  buyer: ByteArray,\n  seller: ByteArray,\n  amount: Int,\n  deadline: Int,\n\x7d\n\npub type EscrowRedeemer \x7b\n  Complete\n  Cancel\n  Reclaim\n\x7d\n"
  else
    "pub type Datum \x7b\n  admin: ByteArray,\n\x7d\n\npub type Redeemer \x7b\n  Execute\n\x7d\n"

/-- `generateValidatorFile(template, ns, name)` from `wasm.ts`. -/
def generateValidatorFile (template ns name : String) : String :=
  let modPath := ns ++ "/" ++ name ++ "/types"
  if template = "mint" then
    "use cardano/transaction.\x7bTransaction\x7d\nuse " ++ modPath ++ ".\x7bMintRedeemer\x7d\n\nvalidator " ++ name ++ "(admin: ByteArray) \x7b\n  mint(redeemer: MintRedeemer, _policy_id: ByteArray, self: Transaction) \x7b\n    when redeemer is \x7b\n      MintRedeemer.Mint -> \x7b\n        let must_be_signed = list.has(self.extra_signatories, admin)\n        must_be_signed\n      \x7d\n      MintRedeemer.Burn -> True\n    \x7d\n  \x7d\n\n  else(_) \x7b\n    fail\n  \x7d\n\x7d\n"
  else if template = "vesting" then
    "use cardano/transaction.\x7bTransaction\x7d\nuse " ++ modPath ++ ".\x7bVestingDatum, VestingRedeemer\x7d\n\nvalidator " ++ name ++ " \x7b\n  spend(datum_opt: Option<VestingDatum>, redeemer: VestingRedeemer, _input: Data, self: Transaction) \x7b\n    expect Some(datum) = datum_opt\n    when redeemer is \x7b\n      VestingRedeemer.Claim -> \x7b\n        let signed_by_beneficiary = list.has(self.extra_signatories, datum.beneficiary)\n        let after_deadline = when self.validity_range.lower_bound.bound_type is \x7b\n          Finite(lower) -> lower >= datum.deadline\n          _ -> False\n        \x7d\n        signed_by_beneficiary && after_deadline\n      \x7d\n    \x7d\n  \x7d\n\n  else(_) \x7b\n    fail\n  \x7d\n\x7d\n"
  else
    "use cardano/transaction.\x7bTransaction\x7d\nuse " ++ modPath ++ ".\x7bDatum, Redeemer\x7d\n\nvalidator " ++ name ++ " \x7b\n  spend(datum_opt: Option<Datum>, redeemer: Redeemer, _input: Data, self: Transaction) \x7b\n    expect Some(datum) = datum_opt\n    when redeemer is \x7b\n      Redeemer.Execute -> \x7b\n        list.has(self.extra_signatories, datum.admin)\n      \x7d\n    \x7d\n  \x7d\n\n  else(_) \x7b\n    fail\n  \x7d\n\x7d\n"

/-- `generateFallback(options)` from `wasm.ts`: manifest, type module, validator module. -/
def generateFallback (o : GenOptions) : List GeneratedFile :=
  let ns := o.«namespace».getD "myorg"
  let name := o.project_name.getD "my_contract"
  let template := o.template.getD "mint"
  let aikenToml :=
    "name = \"" ++ ns ++ "/" ++ name ++ "\"\nversion = \"0.0.1\"\ncompiler = \"v1.1.21\"\nplutus = \"v3\"\nlicense = \"Apache-2.0\"\n\n[repository]\nuser = \"" ++ ns ++ "\"\nproject = \"" ++ name ++ "\"\nplatform = \"github\"\n\n[[dependencies]]\nname = \"aiken-lang/stdlib\"\nversion = \"v3.0.0\"\nsource = \"github\"\n"
  let typesAk := generateTypesFile template o
  let validatorAk := generateValidatorFile template ns name
  [ { path := "aiken.toml", content := aikenToml },
    { path := "lib/" ++ ns ++ "/" ++ name ++ "/types.ak", content := typesAk },
    { path := "validators/" ++ name ++ ".ak", content := validatorAk } ]

/-! ## Identifier alphabet and input sanitizing (`DownloadButton.tsx`) -/

/-- A character matched by the class `[a-z0-9_]`. -/
def isIdentChar (c : Char) : Bool :=
  (Char.ofNat 97 ≤ c && c ≤ Char.ofNat 122) || (Char.ofNat 48 ≤ c && c ≤ Char.ofNat 57) || c = Char.ofNat 95

/-- Non-empty identifier over the lowercase-alphanumeric-and-underscore alphabet. -/
def isIdent (s : String) : Bool :=
  !s.data.isEmpty && s.data.all isIdentChar

/-- The ConfigPanel input handler `v.replace(/[^a-z0-9_]/g, '')`. -/
def sanitizeIdent (v : String) : String :=
  String.mk (v.data.filter isIdentChar)

/-! ## Substring search (used to state facts about generated text) -/

/-- `isLeadOf pat l`: `pat` is an initial segment of `l`. -/
def isLeadOf : List Char → List Char → Bool
  | [], _ => true
  | _ :: _, [] => false
  | a :: as, b :: bs => a = b && isLeadOf as bs

/-- `hasSub pat l`: `pat` occurs contiguously inside `l`. -/
def hasSub (pat : List Char) : List Char → Bool
  | [] => pat.isEmpty
  | c :: cs => isLeadOf pat (c :: cs) || hasSub pat cs

/-- `containsSub s pat`: `pat` occurs as a substring of `s`. -/
def containsSub (s pat : String) : Bool :=
  hasSub pat.data s.data

/-! ## Slash-separated path segments (shared by the path invariants and the file tree) -/

/-- Split a character list at every `/`, JS `String.prototype.split('/')` style. -/
def splitSlashAux : List Char → List (List Char)
  | [] => [[]]
  | c :: cs =>
      if c = '/' then [] :: splitSlashAux cs
      else
        match splitSlashAux cs with
        | [] => [[c]]
        | s :: ss => (c :: s) :: ss

/-- `s.split('/')` as a list of strings. -/
def splitSlash (s : String) : List String :=
  (splitSlashAux s.data).map (fun l => String.mk l)

/-! ## Feature catalogue and toggling (`wasm.ts` `FALLBACK_FEATURES`, `CustomConfig.tsx`) -/

structure FeatureInfo where
  name : String
  description : String
  purpose : Option String
  depends_on : List String
deriving DecidableEq, Repr

/-- `FALLBACK_FEATURES` from `wasm.ts`. -/
def FALLBACK_FEATURES : List FeatureInfo :=
  [ { name := "signature-auth", description := "Require a specific signer in extra_signatories", purpose := none, depends_on := [] },
    { name := "timelock", description := "Enforce validity_range before/after a deadline field", purpose := some "spend", depends_on := [] },
    { name := "datum-continuity", description := "Find continuing output and validate datum preservation", purpose := some "spend", depends_on := [] },
    { name := "value-preservation", description := "Verify lovelace math (input >= output)", purpose := some "spend", depends_on := ["datum-continuity"] },
    { name := "reference-safety", description := "Reject reference script injection on continuing output", purpose := some "spend", depends_on := ["datum-continuity"] },
    { name := "burn-verification", description := "Check all minted quantities are negative (mint-only)", purpose := some "mint", depends_on := [] },
    { name := "bounded-operations", description := "Enforce minimum lovelace floor on continuing output", purpose := some "spend", depends_on := ["datum-continuity"] } ]

/-- `features.find(f => f.name === name)?.depends_on ?? []`. -/
def directDeps (features : List FeatureInfo) (n : String) : List String :=
  match features.find? (fun f => f.name = n) with
  | some f => f.depends_on
  | none => []

/-- Order-preserving deduplication, the behaviour of `[...new Set(l)]`. -/
def insertionDedup (seen : List String) : List String → List String
  | [] => []
  | x :: xs =>
      if seen.contains x then insertionDedup seen xs
      else x :: insertionDedup (x :: seen) xs

/-- `toggleFeature` from `CustomConfig.tsx`: deselect filters the name out,
select appends the name and its direct dependencies, dedup by first occurrence. -/
def toggleFeature (features : List FeatureInfo) (sel : List String) (n : String) : List String :=
  if sel.contains n then
    sel.filter (fun f => ¬ f = n)
  else
    insertionDedup [] (sel ++ n :: directDeps features n)

/-- Every dependency of every selected feature is itself selected. -/
def depClosed (features : List FeatureInfo) (sel : List String) : Bool :=
  sel.all (fun f => (directDeps features f).all (fun d => sel.contains d))

/-- One round of dependency expansion. -/
def closureStep (features : List FeatureInfo) (acc : List String) : List String :=
  insertionDedup [] (acc ++ acc.flatMap (directDeps features))

/-- Iterate `closureStep` a fixed number of times. -/
def iterStep (features : List FeatureInfo) : Nat → List String → List String
  | 0, acc => acc
  | k + 1, acc => iterStep features k (closureStep features acc)

/-- The transitive dependency closure of a feature name (including the feature),
computed by iterating expansion `features.length` times. -/
def depsClosure (features : List FeatureInfo) (n : String) : List String :=
  iterStep features features.length [n]

/-- The checkbox `disabled` computation from `CustomConfig.tsx`
(`isDep && checked`). -/
def checkboxDisabled (features : List FeatureInfo) (sel : List String) (g : String) : Bool :=
  (sel.any (fun s =>
    match features.find? (fun x => x.name = s) with
    | some feat => feat.depends_on.contains g
    | none => false)) && sel.contains g

/-! ## Template catalogue and SDK gating (`wasm.ts`, `template-icons`, `Docs.tsx`) -/

structure TemplateInfo where
  slug : String
  description : String
  supports_sdk : Option Bool
deriving DecidableEq, Repr

/-- `FALLBACK_TEMPLATES` from `wasm.ts`. -/
def FALLBACK_TEMPLATES : List TemplateInfo :=
  [ { slug := "mint", description := "CIP-25 minting policy with admin signature and optional time-lock", supports_sdk := some true },
    { slug := "vesting", description := "Time-locked fund release with beneficiary claim and optional cancel", supports_sdk := some true },
    { slug := "escrow", description := "Two-party escrow with deadline, completion, and mutual cancellation", supports_sdk := some true },
    { slug := "treasury", description := "N-of-M multisig treasury with deposit, withdraw, datum continuity, and 2 ADA floor", supports_sdk := some true },
    { slug := "marketplace", description := "NFT marketplace with list, buy, and delist actions", supports_sdk := some true },
    { slug := "staking", description := "Staking pool with deposit, withdraw, and admin rewards", supports_sdk := some true },
    { slug := "oracle", description := "Oracle-gated settlement with deadline and buyer reclaim", supports_sdk := some true },
    { slug := "referral", description := "On-chain referral system with mint, treasury, and anti-sybil protection", supports_sdk := some true },
    { slug := "dex", description := "DEX/AMM pool with constant-product swaps, liquidity, and fee management", supports_sdk := some false },
    { slug := "lending", description := "Lending pool with supply, borrow, repay, and collateral ratio enforcement", supports_sdk := some false },
    { slug := "governance", description := "DAO governance with token-gated treasury and proposal execution", supports_sdk := some false },
    { slug := "streaming", description := "Streaming payments with time-based tranches and cancel/top-up", supports_sdk := some false },
    { slug := "custom", description := "Custom validator with composable features (sig, timelock, datum-continuity, ...)", supports_sdk := some false } ]

/-- ASCII lowercasing of one character, the per-character effect of
`String.prototype.toLowerCase()` on the slug alphabet. -/
def lowerChar (c : Char) : Char :=
  if 65 ≤ c.toNat ∧ c.toNat ≤ 90 then Char.ofNat (c.toNat + 32) else c

/-- Per-character effect of lowercasing followed by replacing every hyphen
with an underscore. -/
def normChar (c : Char) : Char :=
  if lowerChar c = '-' then '_' else lowerChar c

/-- `normalizeSlug` from the template-icons module. -/
def normalizeSlug (s : String) : String :=
  String.mk (s.data.map normChar)

/-- `SLUG_ALIASES`: long slug to short slug. -/
def SLUG_ALIASES : List (String × String) :=
  [ ("simple_mint", "mint"),
    ("multisig_treasury", "treasury"),
    ("nft_marketplace", "marketplace"),
    ("staking_pool", "staking"),
    ("oracle_settlement", "oracle"),
    ("referral_system", "referral"),
    ("dex_pool", "dex"),
    ("lending_pool", "lending"),
    ("dao_governance", "governance"),
    ("streaming_payments", "streaming") ]

/-- Object-literal key lookup. -/
def lookupAlias (m : List (String × String)) (k : String) : Option String :=
  (m.find? (fun p => p.1 = k)).map (fun p => p.2)

/-- `REVERSE_SLUG_ALIASES`: short slug back to long slug. -/
def REVERSE_SLUG_ALIASES : List (String × String) :=
  SLUG_ALIASES.map (fun p => (p.2, p.1))

/-- `toShortTemplateSlug`. -/
def toShortTemplateSlug (slug : String) : String :=
  match lookupAlias SLUG_ALIASES (normalizeSlug slug) with
  | some short => short
  | none => normalizeSlug slug

/-- `toLongTemplateSlug`. -/
def toLongTemplateSlug (slug : String) : String :=
  let short := toShortTemplateSlug slug
  match lookupAlias REVERSE_SLUG_ALIASES short with
  | some long => long
  | none => short

/-- `templateSupportsSdk` from the wizard in `Docs.tsx`:
`templates.find(t => toShortTemplateSlug(t.slug) === shortSlug)?.supports_sdk ?? false`. -/
def templateSupportsSdk (templates : List TemplateInfo) (slug : String) : Bool :=
  match templates.find? (fun t => toShortTemplateSlug t.slug = toShortTemplateSlug slug) with
  | some t => t.supports_sdk.getD false
  | none => false

/-- The wizard configuration fields relevant to SDK gating. -/
structure WizardConfig where
  template : String
  generate_sdk : Bool
deriving DecidableEq, Repr

/-- The SDK branch of `regenerate` in `Docs.tsx`: the SDK file list is the
`generateSdk` result only when the flag is set and the template supports the
SDK, and is `[]` otherwise.  `sdkResult` stands for whatever the SDK generator
would return. -/
def sdkFilesAfterRegenerate (templates : List TemplateInfo) (cfg : WizardConfig)
    (sdkResult : List GeneratedFile) : List GeneratedFile :=
  if cfg.generate_sdk && templateSupportsSdk templates cfg.template then sdkResult else []

/-- The effect in `Docs.tsx` that resets `generate_sdk` when the template does
not support the SDK. -/
def generateSdkFlagAfterEffect (templates : List TemplateInfo) (cfg : WizardConfig) : Bool :=
  if cfg.generate_sdk && !(templateSupportsSdk templates cfg.template) then false
  else cfg.generate_sdk

/-! ## Wizard serialization (`Docs.tsx`) -/

/-- JS `String.prototype.trim()`: strip whitespace from both ends. -/
def trimStr (s : String) : String :=
  String.mk ((((s.data.dropWhile (fun c => c.isWhitespace)).reverse).dropWhile (fun c => c.isWhitespace)).reverse)

/-- JS `Array.prototype.join(',')`. -/
def joinComma : List String → String
  | [] => ""
  | [x] => x
  | x :: xs => x ++ "," ++ joinComma xs

structure FieldSpec where
  name : String
  field_type : String
deriving DecidableEq, Repr

structure ActionSpec where
  name : String
  fields : List FieldSpec
deriving DecidableEq, Repr

/-- `serializeDatumFields` from `Docs.tsx`. -/
def serializeDatumFields (fields : List FieldSpec) : String :=
  joinComma ((fields.filter (fun f => 0 < (trimStr f.name).length)).map
    (fun f => f.name ++ ":" ++ f.field_type))

/-- `serializeRedeemerActions` from `Docs.tsx`. -/
def serializeRedeemerActions (actions : List ActionSpec) : String :=
  joinComma ((actions.filter (fun a => 0 < (trimStr a.name).length)).map
    (fun a =>
      if a.fields.isEmpty then a.name
      else
        let fieldStr := joinComma ((a.fields.filter (fun f => 0 < (trimStr f.name).length)).map
          (fun f => f.name ++ ":" ++ f.field_type))
        if 0 < fieldStr.length then a.name ++ "(" ++ fieldStr ++ ")" else a.name))

/-- Modelled from the spec: the documented rendering of one action in the
`Name[(field:Type,...)]` grammar -- the bare identifier when the field list is
empty or contains only blank-named fields, else the identifier with the
parenthesised non-blank field list. -/
def actionRender (a : ActionSpec) : String :=
  if a.fields = [] ∨ ∀ f ∈ a.fields, (trimStr f.name).length = 0 then a.name
  else a.name ++ "(" ++ joinComma ((a.fields.filter (fun f => 0 < (trimStr f.name).length)).map
    (fun f => f.name ++ ":" ++ f.field_type)) ++ ")"

/-! ## File tree (`buildTree`, `collectFolderPaths`) -/

inductive TreeNode where
  | mk : String → String → Option String → List TreeNode → TreeNode

def TreeNode.name : TreeNode → String
  | .mk n _ _ _ => n

def TreeNode.fullPath : TreeNode → String
  | .mk _ f _ _ => f

def TreeNode.path : TreeNode → Option String
  | .mk _ _ p _ => p

def TreeNode.children : TreeNode → List TreeNode
  | .mk _ _ _ c => c

/-- One step of the `buildTree` loop at one tree level: find the first node
with the given name and rebuild its children through `k`, or create the node
at the end of the level (children built by `k` from an empty level). -/
def insertInto (name accumulated : String) (leafPath : Option String)
    (k : List TreeNode → List TreeNode) : List TreeNode → List TreeNode
  | [] => [TreeNode.mk name accumulated leafPath (k [])]
  | n :: ns =>
      if n.name = name then
        TreeNode.mk n.name n.fullPath n.path (k n.children) :: ns
      else
        n :: insertInto name accumulated leafPath k ns

/-- Insert one file (its path split into `parts`) into a forest, following the
inner loop of `buildTree`: `acc` is the accumulated path prefix. -/
def insertPath (filePath : String) : List String → String → List TreeNode → List TreeNode
  | [], _, forest => forest
  | name :: rest, acc, forest =>
      let accumulated := if acc = "" then name else acc ++ "/" ++ name
      insertInto name accumulated (if rest.isEmpty then some filePath else none)
        (fun ch => insertPath filePath rest accumulated ch) forest

/-- `buildTree` from the file-tree module. -/
def buildTree (files : List GeneratedFile) : List TreeNode :=
  files.foldl (fun root file => insertPath file.path (splitSlash file.path) "" root) []

/-- Number of nodes in a forest whose `path` field equals `p`. -/
def countPath (p : String) : List TreeNode → Nat
  | [] => 0
  | TreeNode.mk _ _ pa ch :: ns =>
      (if pa = some p then 1 else 0) + countPath p ch + countPath p ns

/-- `collectFolderPaths` from the file-tree module: it descends only into
nodes that have children and no `path` field. -/
def collectFolderPaths : List TreeNode → List String
  | [] => []
  | TreeNode.mk _ fp pa ch :: ns =>
      if pa.isNone && !ch.isEmpty then
        fp :: (collectFolderPaths ch ++ collectFolderPaths ns)
      else
        collectFolderPaths ns

/-- Modelled from the spec side of the claim: the full paths of all nodes
anywhere in the tree that have children and no `path` field (the folders),
in preorder. -/
def folderPathsSpec : List TreeNode → List String
  | [] => []
  | TreeNode.mk _ fp pa ch :: ns =>
      (if pa.isNone && !ch.isEmpty then [fp] else []) ++ folderPathsSpec ch ++ folderPathsSpec ns

/-- The chain of nodes named by `parts` exists in the forest (first-match
semantics, like the `buildTree` walk). -/
def hasChain : List String → List TreeNode → Bool
  | [], _ => true
  | _ :: _, [] => false
  | name :: rest, n :: ns =>
      if n.name = name then hasChain rest n.children else hasChain (name :: rest) ns

/-- Walking `parts` through the forest never descends through a node that
already carries a `path` field. -/
def freeFor : List String → List TreeNode → Bool
  | [], _ => true
  | _ :: _, [] => true
  | name :: rest, n :: ns =>
      if n.name = name then
        (rest.isEmpty || ((n.path = none) && freeFor rest n.children))
      else freeFor (name :: rest) ns

/-- Every node that carries a `path` field is a leaf. -/
def nodesOk : List TreeNode → Bool
  | [] => true
  | TreeNode.mk _ _ pa ch :: ns =>
      ((pa = none) || ch.isEmpty) && nodesOk ch && nodesOk ns

/-! ## Basic lemmas -/

theorem string_mk_data (s : String) : String.mk s.data = s := by
  cases s
  rfl

theorem toNat_ofNat_valid {n : Nat} (h : n.isValidChar) : (Char.ofNat n).toNat = n := by
  simp [Char.ofNat, h, Char.ofNatAux, Char.toNat, UInt32.toNat]

theorem splitSlashAux_ne_nil (l : List Char) : splitSlashAux l ≠ [] := by
  induction l with
  | nil => simp [splitSlashAux]
  | cons c cs ih =>
      by_cases h : c = '/'
      · simp [splitSlashAux, h]
      · simp only [splitSlashAux, if_neg h]
        cases hs : splitSlashAux cs with
        | nil => simp
        | cons s ss => simp

theorem splitSlashAux_no_slash (l : List Char) (h : ∀ c ∈ l, ¬ c = '/') :
    splitSlashAux l = [l] := by
  induction l with
  | nil => rfl
  | cons c cs ih =>
      have hc : ¬ c = '/' := h c (List.mem_cons_self c cs)
      have ih' := ih (fun x hx => h x (List.mem_cons_of_mem c hx))
      simp [splitSlashAux, hc, ih']

theorem splitSlashAux_append (l₁ l₂ : List Char) (h : ∀ c ∈ l₁, ¬ c = '/') :
    splitSlashAux (l₁ ++ '/' :: l₂) = l₁ :: splitSlashAux l₂ := by
  induction l₁ with
  | nil => simp [splitSlashAux]
  | cons c cs ih =>
      have hc : ¬ c = '/' := h c (List.mem_cons_self c cs)
      have ih' := ih (fun x hx => h x (List.mem_cons_of_mem c hx))
      simp [splitSlashAux, hc, ih']

theorem splitSlash_ne_nil (s : String) : splitSlash s ≠ [] := by
  unfold splitSlash
  intro h
  exact splitSlashAux_ne_nil s.data (List.map_eq_nil_iff.mp h)

/-! ## Claim C1 -/

/-- Claim C1: for options with template `vesting` and `cancellable` set,
`generate` returns exactly three files -- the manifest `aiken.toml`, one type
module `lib/<namespace>/<project_name>/types.ak` and one validator module under
`validators/` -- and the type module is the `generateTypesFile` output, whose
`VestingRedeemer` declaration contains both a `Claim` and a `Cancel` variant. -/
theorem vesting_cancellable_three_files_claim_and_cancel (o : GenOptions)
    (ht : o.template = some "vesting") (hc : o.cancellable = true) :
    (generateFallback o).map GeneratedFile.path =
      ["aiken.toml",
       "lib/" ++ o.«namespace».getD "myorg" ++ "/" ++ o.project_name.getD "my_contract" ++ "/types.ak",
       "validators/" ++ o.project_name.getD "my_contract" ++ ".ak"] ∧
    (generateFallback o)[1]? =
      some { path := "lib/" ++ o.«namespace».getD "myorg" ++ "/" ++ o.project_name.getD "my_contract" ++ "/types.ak",
             content := generateTypesFile "vesting" o } ∧
    containsSub (generateTypesFile "vesting" o) "pub type VestingRedeemer" = true ∧
    containsSub (generateTypesFile "vesting" o) "  Claim\n" = true ∧
    containsSub (generateTypesFile "vesting" o) "  Cancel\n" = true := by
  have htypes : generateTypesFile "vesting" o =
      "pub type VestingDatum \x7b\n  owner: ByteArray,\n  beneficiary: ByteArray,\n  deadline: Int,\n  amount: Int,\n\x7d\n\npub type VestingRedeemer \x7b\n  Claim\n"
        ++ "  Cancel\n" ++ "\x7d\n" := by
    simp [generateTypesFile, hc]
  refine ⟨?_, ?_, ?_, ?_, ?_⟩
  · simp [generateFallback, ht]
  · simp [generateFallback, ht]
  · rw [htypes]; decide
  · rw [htypes]; decide
  · rw [htypes]; decide

theorem vesting_cancellable_three_files_claim_and_cancel_witness :
    ((⟨some "myorg", some "my_vesting", some "vesting", false, true, true⟩ : GenOptions).template = some "vesting" ∧
     (⟨some "myorg", some "my_vesting", some "vesting", false, true, true⟩ : GenOptions).cancellable = true) ∧
    ((generateFallback ⟨some "myorg", some "my_vesting", some "vesting", false, true, true⟩).map GeneratedFile.path =
      ["aiken.toml", "lib/" ++ "myorg" ++ "/" ++ "my_vesting" ++ "/types.ak", "validators/" ++ "my_vesting" ++ ".ak"] ∧
     (generateFallback ⟨some "myorg", some "my_vesting", some "vesting", false, true, true⟩)[1]? =
      some { path := "lib/" ++ "myorg" ++ "/" ++ "my_vesting" ++ "/types.ak",
             content := generateTypesFile "vesting" ⟨some "myorg", some "my_vesting", some "vesting", false, true, true⟩ } ∧
     containsSub (generateTypesFile "vesting" ⟨some "myorg", some "my_vesting", some "vesting", false, true, true⟩) "pub type VestingRedeemer" = true ∧
     containsSub (generateTypesFile "vesting" ⟨some "myorg", some "my_vesting", some "vesting", false, true, true⟩) "  Claim\n" = true ∧
     containsSub (generateTypesFile "vesting" ⟨some "myorg", some "my_vesting", some "vesting", false, true, true⟩) "  Cancel\n" = true) :=
  ⟨⟨rfl, rfl⟩, vesting_cancellable_three_files_claim_and_cancel _ rfl rfl⟩

/-! ## Claim C2 -/

/-- Claim C2: the fallback renderer is a pure function of the option fields it
reads; two calls on options that agree on namespace, project name, template and
the toggles yield byte-identical ordered file lists. -/
theorem generate_deterministic (o₁ o₂ : GenOptions)
    (h1 : o₁.«namespace» = o₂.«namespace») (h2 : o₁.project_name = o₂.project_name)
    (h3 : o₁.template = o₂.template) (h4 : o₁.time_lock = o₂.time_lock)
    (h5 : o₁.cancellable = o₂.cancellable) :
    generateFallback o₁ = generateFallback o₂ := by
  cases o₁
  cases o₂
  simp only at h1 h2 h3 h4 h5
  subst h1 h2 h3 h4 h5
  rfl

theorem generate_deterministic_witness :
    generateFallback ⟨some "myorg", some "my_token", some "mint", false, false, false⟩ =
      generateFallback ⟨some "myorg", some "my_token", some "mint", false, false, true⟩ :=
  generate_deterministic _ _ rfl rfl rfl rfl rfl

/-! ## Claim C5 -/

/-- Claim C5: on any template whose short slug is one of the SDK-unsupported
catalogue slugs (dex, lending, governance, streaming, custom), the wizard
produces no SDK files at all -- whatever the SDK generator would have returned
-- and the `generate_sdk` flag is reset to `false`. -/
theorem sdk_gating_unsupported (cfg : WizardConfig) (sdkResult : List GeneratedFile)
    (h : toShortTemplateSlug cfg.template ∈ ["dex", "lending", "governance", "streaming", "custom"]) :
    sdkFilesAfterRegenerate FALLBACK_TEMPLATES cfg sdkResult = [] ∧
    generateSdkFlagAfterEffect FALLBACK_TEMPLATES cfg = false := by
  have hs : templateSupportsSdk FALLBACK_TEMPLATES cfg.template = false := by
    unfold templateSupportsSdk
    simp only [List.mem_cons, List.not_mem_nil, or_false] at h
    rcases h with h | h | h | h | h <;> rw [h] <;> decide
  constructor
  · simp [sdkFilesAfterRegenerate, hs]
  · cases hb : cfg.generate_sdk <;> simp [generateSdkFlagAfterEffect, hs, hb]

theorem sdk_gating_unsupported_witness :
    (toShortTemplateSlug (⟨"dex", true⟩ : WizardConfig).template ∈ ["dex", "lending", "governance", "streaming", "custom"]) ∧
    (sdkFilesAfterRegenerate FALLBACK_TEMPLATES ⟨"dex", true⟩ [⟨"sdk/client.ts", "client"⟩] = [] ∧
     generateSdkFlagAfterEffect FALLBACK_TEMPLATES ⟨"dex", true⟩ = false) :=
  ⟨by decide, sdk_gating_unsupported _ _ (by decide)⟩

/-! ## Claim C7 -/

/-- Claim C7 is corrected by `generate_no_validation_cex`: the fallback
generator does not validate.  Amended claim: the ConfigPanel input handlers
keep namespace and project name inside the `[a-z0-9_]` alphabet by stripping
every other character, while `generateFallback` itself performs no validation
and renders its three files for every options value, including empty or
invalid namespaces and project names. -/
theorem sanitize_restricts_alphabet_and_generate_never_validates :
    (∀ v : String, (sanitizeIdent v).data.all isIdentChar = true) ∧
    (∀ o : GenOptions, (generateFallback o).length = 3) := by
  constructor
  · intro v
    simp only [sanitizeIdent, List.all_eq_true]
    intro c hc
    exact (List.mem_filter.mp hc).2
  · intro o
    rfl

/-- Claim C7 counterexample: `"BAD!"` is outside the identifier alphabet, yet
`generateFallback` still renders three files rather than failing validation
with no files. -/
theorem generate_no_validation_cex :
    isIdent "BAD!" = false ∧
    (generateFallback ⟨some "BAD!", some "ok", some "mint", false, false, false⟩).length = 3 :=
  ⟨by decide, rfl⟩

/-! ## Claims C3 and C4: feature toggling -/

theorem mem_insertionDedup (l : List String) : ∀ (seen : List String) (x : String),
    x ∈ insertionDedup seen l ↔ (x ∈ l ∧ x ∉ seen) := by
  induction l with
  | nil => intro seen x; simp [insertionDedup]
  | cons y ys ih =>
      intro seen x
      by_cases hy : seen.contains y = true
      · have hy' : y ∈ seen := by simpa [List.contains] using hy
        rw [insertionDedup, if_pos hy, ih]
        constructor
        · rintro ⟨hx, hs⟩
          exact ⟨List.mem_cons_of_mem y hx, hs⟩
        · rintro ⟨hx, hs⟩
          rcases List.mem_cons.mp hx with rfl | hx
          · exact absurd hy' hs
          · exact ⟨hx, hs⟩
      · rw [insertionDedup, if_neg hy, List.mem_cons, ih]
        have hy' : y ∉ seen := by simpa [List.contains] using hy
        constructor
        · rintro (rfl | ⟨hx, hs⟩)
          · exact ⟨List.mem_cons_self _ _, hy'⟩
          · have hxs : x ∉ seen := fun hmem => hs (List.mem_cons_of_mem y hmem)
            exact ⟨List.mem_cons_of_mem y hx, hxs⟩
        · rintro ⟨hx, hs⟩
          rcases List.mem_cons.mp hx with rfl | hx
          · exact Or.inl rfl
          · by_cases hxy : x = y
            · exact Or.inl hxy
            · exact Or.inr ⟨hx, fun hm => (List.mem_cons.mp hm).elim hxy hs⟩

theorem mem_toggle_select (features : List FeatureInfo) (sel : List String) (n : String)
    (h : sel.contains n = false) (x : String) :
    x ∈ toggleFeature features sel n ↔ (x ∈ sel ∨ x = n ∨ x ∈ directDeps features n) := by
  rw [toggleFeature, if_neg (by rw [h]; simp), mem_insertionDedup]
  simp

theorem catalogue_closure_eq : ∀ f ∈ FALLBACK_FEATURES,
    depsClosure FALLBACK_FEATURES f.name = f.name :: directDeps FALLBACK_FEATURES f.name := by
  decide

theorem catalogue_deps_flat : ∀ f ∈ FALLBACK_FEATURES,
    ∀ d ∈ directDeps FALLBACK_FEATURES f.name, directDeps FALLBACK_FEATURES d = [] := by
  decide

/-- Claim C3 (amended): selecting an unselected catalogue feature yields a
superset of the current selection that also contains the feature and its
transitive dependency closure; and when every dependency of every selected
feature was already selected, this closure property is preserved by the
toggle.  (Unconditionally re-closing an arbitrary selection, as the original
claim states, fails: see the counterexample.) -/
theorem toggle_select_superset_closure (sel : List String) (f : FeatureInfo)
    (hf : f ∈ FALLBACK_FEATURES) (hns : sel.contains f.name = false) :
    (∀ x ∈ sel, x ∈ toggleFeature FALLBACK_FEATURES sel f.name) ∧
    (∀ d ∈ depsClosure FALLBACK_FEATURES f.name, d ∈ toggleFeature FALLBACK_FEATURES sel f.name) ∧
    (depClosed FALLBACK_FEATURES sel = true →
      depClosed FALLBACK_FEATURES (toggleFeature FALLBACK_FEATURES sel f.name) = true) := by
  have hmem := mem_toggle_select FALLBACK_FEATURES sel f.name hns
  refine ⟨?_, ?_, ?_⟩
  · intro x hx
    exact (hmem x).mpr (Or.inl hx)
  · intro d hd
    rw [catalogue_closure_eq f hf] at hd
    rcases List.mem_cons.mp hd with rfl | hd
    · exact (hmem _).mpr (Or.inr (Or.inl rfl))
    · exact (hmem d).mpr (Or.inr (Or.inr hd))
  · intro hclosed
    rw [depClosed, List.all_eq_true]
    intro g hg
    rw [List.all_eq_true]
    intro d hd
    have hdmem : d ∈ toggleFeature FALLBACK_FEATURES sel f.name := by
      rcases (hmem g).mp hg with hgs | rfl | hgd
      · have hgall := (List.all_eq_true.mp hclosed) g hgs
        have hds := (List.all_eq_true.mp hgall) d hd
        have hdsel : d ∈ sel := by simpa [List.contains] using hds
        exact (hmem d).mpr (Or.inl hdsel)
      · exact (hmem d).mpr (Or.inr (Or.inr hd))
      · rw [catalogue_deps_flat f hf g hgd] at hd
        exact absurd hd (List.not_mem_nil d)
    simpa [List.contains] using hdmem

theorem toggle_select_superset_closure_witness :
    ((⟨"timelock", "Enforce validity_range before/after a deadline field", some "spend", []⟩ : FeatureInfo) ∈ FALLBACK_FEATURES ∧
     (["signature-auth"] : List String).contains (⟨"timelock", "Enforce validity_range before/after a deadline field", some "spend", []⟩ : FeatureInfo).name = false) ∧
    ((∀ x ∈ (["signature-auth"] : List String),
        x ∈ toggleFeature FALLBACK_FEATURES ["signature-auth"] (⟨"timelock", "Enforce validity_range before/after a deadline field", some "spend", []⟩ : FeatureInfo).name) ∧
     (∀ d ∈ depsClosure FALLBACK_FEATURES (⟨"timelock", "Enforce validity_range before/after a deadline field", some "spend", []⟩ : FeatureInfo).name,
        d ∈ toggleFeature FALLBACK_FEATURES ["signature-auth"] (⟨"timelock", "Enforce validity_range before/after a deadline field", some "spend", []⟩ : FeatureInfo).name) ∧
     (depClosed FALLBACK_FEATURES ["signature-auth"] = true →
        depClosed FALLBACK_FEATURES (toggleFeature FALLBACK_FEATURES ["signature-auth"] (⟨"timelock", "Enforce validity_range before/after a deadline field", some "spend", []⟩ : FeatureInfo).name) = true)) :=
  ⟨⟨by decide, by decide⟩, toggle_select_superset_closure _ _ (by decide) (by decide)⟩

/-- Claim C3 counterexample: selecting `timelock` while `value-preservation`
is selected without its dependency leaves the selection dependency-open, so a
select operation does not guarantee that every dependency of every selected
feature is selected. -/
theorem toggle_select_not_closed_cex :
    ¬ depClosed FALLBACK_FEATURES
        (toggleFeature FALLBACK_FEATURES ["value-preservation"] "timelock") = true := by
  decide

theorem checkbox_match_eq (features : List FeatureInfo) (g s : String) :
    (match features.find? (fun x => x.name = s) with
     | some feat => feat.depends_on.contains g
     | none => false) = (directDeps features s).contains g := by
  unfold directDeps
  cases features.find? (fun x => x.name = s) <;> simp

/-- Claim C4 (amended): toggling a selected feature off removes exactly that
feature -- features that depend on it stay selected -- and the UI instead
guards the cascade by disabling the checkbox of any selected feature that some
selected feature lists as a dependency. -/
theorem toggle_deselect_removes_only_target (features : List FeatureInfo)
    (sel : List String) (n : String) (h : sel.contains n = true) :
    (∀ x, x ∈ toggleFeature features sel n ↔ (x ∈ sel ∧ ¬ x = n)) ∧
    (∀ g, g ∈ sel → (∃ s ∈ sel, g ∈ directDeps features s) →
      checkboxDisabled features sel g = true) := by
  constructor
  · intro x
    rw [toggleFeature, if_pos h, List.mem_filter]
    simp
  · rintro g hg ⟨s, hs, hds⟩
    rw [checkboxDisabled, Bool.and_eq_true]
    constructor
    · rw [List.any_eq_true]
      refine ⟨s, hs, ?_⟩
      rw [checkbox_match_eq]
      simpa [List.contains] using hds
    · simpa [List.contains] using hg

theorem toggle_deselect_removes_only_target_witness :
    ((["datum-continuity", "value-preservation"] : List String).contains "value-preservation" = true) ∧
    ((∀ x, x ∈ toggleFeature FALLBACK_FEATURES ["datum-continuity", "value-preservation"] "value-preservation" ↔
        (x ∈ (["datum-continuity", "value-preservation"] : List String) ∧ ¬ x = "value-preservation")) ∧
     (∀ g, g ∈ (["datum-continuity", "value-preservation"] : List String) →
        (∃ s ∈ (["datum-continuity", "value-preservation"] : List String), g ∈ directDeps FALLBACK_FEATURES s) →
        checkboxDisabled FALLBACK_FEATURES ["datum-continuity", "value-preservation"] g = true)) :=
  ⟨by decide, toggle_deselect_removes_only_target _ _ _ (by decide)⟩

/-- Claim C4 counterexample: deselecting `datum-continuity` while
`value-preservation` is selected leaves `value-preservation` selected with a
missing dependency, so removal does not cascade to dependents. -/
theorem toggle_deselect_keeps_dependent_cex :
    ¬ depClosed FALLBACK_FEATURES
        (toggleFeature FALLBACK_FEATURES ["datum-continuity", "value-preservation"] "datum-continuity") = true := by
  decide

/-! ## Claim C8: wizard serialization -/

theorem joinComma_pos (l : List String) (hne : l ≠ []) (hall : ∀ x ∈ l, 0 < x.length) :
    0 < (joinComma l).length := by
  match l with
  | [] => exact absurd rfl hne
  | [x] => exact hall x (List.mem_singleton.mpr rfl)
  | x :: y :: ys =>
      show 0 < (x ++ "," ++ joinComma (y :: ys)).length
      rw [String.length_append, String.length_append]
      have : 0 < ("," : String).length := by decide
      omega

theorem action_fieldStr_pos (a : ActionSpec) (f : FieldSpec) (hf : f ∈ a.fields)
    (hfpos : 0 < (trimStr f.name).length) :
    0 < (joinComma ((a.fields.filter (fun f => 0 < (trimStr f.name).length)).map
      (fun f => f.name ++ ":" ++ f.field_type))).length := by
  have hfmem : f ∈ a.fields.filter (fun f => 0 < (trimStr f.name).length) :=
    List.mem_filter.mpr ⟨hf, decide_eq_true hfpos⟩
  apply joinComma_pos
  · intro hnil
    rw [List.map_eq_nil_iff] at hnil
    rw [hnil] at hfmem
    exact absurd hfmem (List.not_mem_nil f)
  · intro x hx
    rw [List.mem_map] at hx
    obtain ⟨g, _, rfl⟩ := hx
    rw [String.length_append, String.length_append]
    have : 0 < (":" : String).length := by decide
    omega

theorem action_render_eq (a : ActionSpec) :
    (if a.fields.isEmpty then a.name
     else
       let fieldStr := joinComma ((a.fields.filter (fun f => 0 < (trimStr f.name).length)).map
         (fun f => f.name ++ ":" ++ f.field_type))
       if 0 < fieldStr.length then a.name ++ "(" ++ fieldStr ++ ")" else a.name)
    = actionRender a := by
  unfold actionRender
  by_cases h1 : a.fields = []
  · simp [h1]
  · by_cases h2 : ∀ f ∈ a.fields, (trimStr f.name).length = 0
    · have hfilter : a.fields.filter (fun f => 0 < (trimStr f.name).length) = [] := by
        rw [List.filter_eq_nil_iff]
        intro f hf
        simp [h2 f hf]
      simp [h1, h2, hfilter, joinComma]
      rw [if_pos h2]
    · obtain ⟨f, hf, hfpos⟩ : ∃ f ∈ a.fields, 0 < (trimStr f.name).length := by
        push_neg at h2
        obtain ⟨f, hf, hne⟩ := h2
        exact ⟨f, hf, Nat.pos_of_ne_zero hne⟩
      have hstr := action_fieldStr_pos a f hf hfpos
      simp [h1, h2, hstr]

/-- Claim C8: on datum fields with non-blank names, `serializeDatumFields` is
exactly the comma-join of the `name:Type` entries in order; for every action
list, `serializeRedeemerActions` is the comma-join, over the actions with
non-blank names, of each action rendered in the documented
`Name[(field:Type,...)]` grammar (`actionRender`); in particular an action
whose field list is empty or all-blank serializes to its bare identifier, and
an action with some non-blank field serializes to `Name(field:Type,...)` over
its non-blank fields. -/
theorem serialize_fields_exact_and_actions_grammar (fields : List FieldSpec)
    (actions : List ActionSpec)
    (h : ∀ f ∈ fields, 0 < (trimStr f.name).length) :
    serializeDatumFields fields = joinComma (fields.map (fun f => f.name ++ ":" ++ f.field_type)) ∧
    serializeRedeemerActions actions =
      joinComma ((actions.filter (fun a => 0 < (trimStr a.name).length)).map actionRender) ∧
    (∀ a : ActionSpec, 0 < (trimStr a.name).length →
      (a.fields = [] ∨ ∀ f ∈ a.fields, (trimStr f.name).length = 0) →
      serializeRedeemerActions [a] = a.name) ∧
    (∀ a : ActionSpec, 0 < (trimStr a.name).length →
      (∃ f ∈ a.fields, 0 < (trimStr f.name).length) →
      serializeRedeemerActions [a] =
        a.name ++ "(" ++ joinComma ((a.fields.filter (fun f => 0 < (trimStr f.name).length)).map
          (fun f => f.name ++ ":" ++ f.field_type)) ++ ")") := by
  refine ⟨?_, ?_, ?_, ?_⟩
  · unfold serializeDatumFields
    rw [List.filter_eq_self.mpr]
    intro f hf
    exact decide_eq_true (h f hf)
  · unfold serializeRedeemerActions
    congr 1
    apply List.map_congr_left
    intro a _
    exact action_render_eq a
  · intro a ha hcase
    unfold serializeRedeemerActions
    rw [show List.filter (fun a => decide (0 < (trimStr a.name).length)) [a] = [a] from by
      rw [List.filter_eq_self.mpr]; intro x hx; rw [List.mem_singleton.mp hx]; exact decide_eq_true ha]
    rcases hcase with hnil | hblank
    · simp [hnil, joinComma]
    · by_cases hfe : a.fields.isEmpty
      · simp [hfe, joinComma]
      · have hfilter : a.fields.filter (fun f => 0 < (trimStr f.name).length) = [] := by
          rw [List.filter_eq_nil_iff]
          intro f hf
          simp [hblank f hf]
        simp only [List.map_cons, List.map_nil, joinComma, hfe, if_false, Bool.false_eq_true,
          hfilter, List.map_nil]
        rfl
  · rintro a ha ⟨f, hf, hfpos⟩
    unfold serializeRedeemerActions
    rw [show List.filter (fun a => decide (0 < (trimStr a.name).length)) [a] = [a] from by
      rw [List.filter_eq_self.mpr]; intro x hx; rw [List.mem_singleton.mp hx]; exact decide_eq_true ha]
    have hne : ¬ a.fields.isEmpty := by
      cases hfl : a.fields with
      | nil => rw [hfl] at hf; exact absurd hf (List.not_mem_nil f)
      | cons y ys => simp [hfl]
    have hstr := action_fieldStr_pos a f hf hfpos
    simp only [List.map_cons, List.map_nil, joinComma, hne, if_false, Bool.false_eq_true, hstr, if_true]

theorem serialize_fields_exact_and_actions_grammar_witness :
    (∀ f ∈ ([⟨"owner", "ByteArray"⟩, ⟨"deadline", "Int"⟩] : List FieldSpec), 0 < (trimStr f.name).length) ∧
    (serializeDatumFields [⟨"owner", "ByteArray"⟩, ⟨"deadline", "Int"⟩] =
       joinComma (([⟨"owner", "ByteArray"⟩, ⟨"deadline", "Int"⟩] : List FieldSpec).map (fun f => f.name ++ ":" ++ f.field_type)) ∧
     serializeRedeemerActions [⟨"Deposit", [⟨"amount", "Int"⟩]⟩, ⟨"", []⟩, ⟨"Withdraw", []⟩] =
       joinComma ((([⟨"Deposit", [⟨"amount", "Int"⟩]⟩, ⟨"", []⟩, ⟨"Withdraw", []⟩] : List ActionSpec).filter
         (fun a => 0 < (trimStr a.name).length)).map actionRender) ∧
     (∀ a : ActionSpec, 0 < (trimStr a.name).length →
       (a.fields = [] ∨ ∀ f ∈ a.fields, (trimStr f.name).length = 0) →
       serializeRedeemerActions [a] = a.name) ∧
     (∀ a : ActionSpec, 0 < (trimStr a.name).length →
       (∃ f ∈ a.fields, 0 < (trimStr f.name).length) →
       serializeRedeemerActions [a] =
         a.name ++ "(" ++ joinComma ((a.fields.filter (fun f => 0 < (trimStr f.name).length)).map
           (fun f => f.name ++ ":" ++ f.field_type)) ++ ")")) :=
  ⟨by decide, serialize_fields_exact_and_actions_grammar _ _ (by decide)⟩

/-! ## Claim C9: template slug normalization -/

theorem lowerChar_idem (c : Char) : lowerChar (lowerChar c) = lowerChar c := by
  unfold lowerChar
  by_cases h : 65 ≤ c.toNat ∧ c.toNat ≤ 90
  · have hv : (c.toNat + 32).isValidChar := Or.inl (by omega)
    have ht : (Char.ofNat (c.toNat + 32)).toNat = c.toNat + 32 := toNat_ofNat_valid hv
    simp [h, ht]
    omega
  · simp [h]

theorem lowerChar_underscore : lowerChar '_' = '_' := by decide

theorem normChar_idem (c : Char) : normChar (normChar c) = normChar c := by
  unfold normChar
  by_cases h : lowerChar c = '-'
  · rw [if_pos h, lowerChar_underscore]
    simp
  · rw [if_neg h, lowerChar_idem, if_neg h]

theorem normalizeSlug_idem (s : String) : normalizeSlug (normalizeSlug s) = normalizeSlug s := by
  unfold normalizeSlug
  simp only [List.map_map]
  congr 1
  apply List.map_congr_left
  intro c _
  exact normChar_idem c

theorem lookupAlias_mem {m : List (String × String)} {k v : String}
    (h : lookupAlias m k = some v) : (k, v) ∈ m := by
  unfold lookupAlias at h
  rw [Option.map_eq_some'] at h
  obtain ⟨p, hp, hv⟩ := h
  have hmem := List.mem_of_find?_eq_some hp
  have hk := List.find?_some hp
  simp at hk
  have : p = (k, v) := by
    cases p
    simp at hk hv
    simp [hk, hv]
  rwa [this] at hmem

theorem alias_values_fixed : ∀ p ∈ SLUG_ALIASES,
    normalizeSlug p.2 = p.2 ∧ lookupAlias SLUG_ALIASES p.2 = none := by
  decide

/-- Claim C9: `toShortTemplateSlug` is idempotent, insensitive to case and
hyphens (it factors through `normalizeSlug`), and on the ten alias pairs the
long slug maps to the short slug while `toLongTemplateSlug` maps the short
slug back to the long one. -/
theorem slug_idempotent_and_roundtrip :
    (∀ s : String, toShortTemplateSlug (toShortTemplateSlug s) = toShortTemplateSlug s) ∧
    (∀ s : String, toShortTemplateSlug (normalizeSlug s) = toShortTemplateSlug s) ∧
    ((toShortTemplateSlug "simple_mint" = "mint" ∧ toLongTemplateSlug "mint" = "simple_mint") ∧
     (toShortTemplateSlug "multisig_treasury" = "treasury" ∧ toLongTemplateSlug "treasury" = "multisig_treasury") ∧
     (toShortTemplateSlug "nft_marketplace" = "marketplace" ∧ toLongTemplateSlug "marketplace" = "nft_marketplace") ∧
     (toShortTemplateSlug "staking_pool" = "staking" ∧ toLongTemplateSlug "staking" = "staking_pool") ∧
     (toShortTemplateSlug "oracle_settlement" = "oracle" ∧ toLongTemplateSlug "oracle" = "oracle_settlement") ∧
     (toShortTemplateSlug "referral_system" = "referral" ∧ toLongTemplateSlug "referral" = "referral_system") ∧
     (toShortTemplateSlug "dex_pool" = "dex" ∧ toLongTemplateSlug "dex" = "dex_pool") ∧
     (toShortTemplateSlug "lending_pool" = "lending" ∧ toLongTemplateSlug "lending" = "lending_pool") ∧
     (toShortTemplateSlug "dao_governance" = "governance" ∧ toLongTemplateSlug "governance" = "dao_governance") ∧
     (toShortTemplateSlug "streaming_payments" = "streaming" ∧ toLongTemplateSlug "streaming" = "streaming_payments")) := by
  refine ⟨?_, ?_, by decide⟩
  · intro s
    cases hl : lookupAlias SLUG_ALIASES (normalizeSlug s) with
    | some v =>
        have hfix := alias_values_fixed _ (lookupAlias_mem hl)
        have hshort : toShortTemplateSlug s = v := by
          simp [toShortTemplateSlug, hl]
        rw [hshort]
        simp [toShortTemplateSlug, hfix.1, hfix.2]
    | none =>
        have hshort : toShortTemplateSlug s = normalizeSlug s := by
          simp [toShortTemplateSlug, hl]
        rw [hshort]
        simp [toShortTemplateSlug, normalizeSlug_idem, hl]
  · intro s
    simp [toShortTemplateSlug, normalizeSlug_idem]

/-! ## Claim C6: path invariants -/

theorem ident_no_slash {s : String} (h : isIdent s = true) : ∀ c ∈ s.data, ¬ c = '/' := by
  intro c hc he
  simp only [isIdent, Bool.and_eq_true, List.all_eq_true] at h
  have hcid := h.2 c hc
  rw [he] at hcid
  exact absurd hcid (by decide)

theorem ident_facts {s : String} (h : isIdent s = true) : ¬ s = ".." ∧ ¬ s = "" := by
  constructor
  · intro he; rw [he] at h; exact absurd h (by decide)
  · intro he; rw [he] at h; exact absurd h (by decide)

theorem splitSlash_lib (ns nm : String) (h1 : ∀ c ∈ ns.data, ¬ c = '/')
    (h2 : ∀ c ∈ nm.data, ¬ c = '/') :
    splitSlash ("lib/" ++ ns ++ "/" ++ nm ++ "/types.ak") = ["lib", ns, nm, "types.ak"] := by
  unfold splitSlash
  have hdata : ("lib/" ++ ns ++ "/" ++ nm ++ "/types.ak").data
      = ['l', 'i', 'b'] ++ '/' :: (ns.data ++ '/' :: (nm.data ++ '/' :: "types.ak".data)) := by
    simp [String.data_append]
  rw [hdata, splitSlashAux_append _ _ (by decide), splitSlashAux_append _ _ h1,
    splitSlashAux_append _ _ h2, splitSlashAux_no_slash _ (by decide)]
  simp [string_mk_data]

theorem splitSlash_validators (nm : String) (h2 : ∀ c ∈ nm.data, ¬ c = '/') :
    splitSlash ("validators/" ++ nm ++ ".ak") = ["validators", nm ++ ".ak"] := by
  unfold splitSlash
  have hdata : ("validators/" ++ nm ++ ".ak").data
      = ['v', 'a', 'l', 'i', 'd', 'a', 't', 'o', 'r', 's'] ++ '/' :: (nm.data ++ ".ak".data) := by
    simp [String.data_append]
  have hnoslash : ∀ c ∈ nm.data ++ ".ak".data, ¬ c = '/' := by
    intro c hc
    rcases List.mem_append.mp hc with hc | hc
    · exact h2 c hc
    · intro he; rw [he] at hc; exact absurd hc (by decide)
  rw [hdata, splitSlashAux_append _ _ (by decide), splitSlashAux_no_slash _ hnoslash]
  simp [string_mk_data]
  rw [String.ext_iff]
  simp [String.data_append]

theorem name_ak_facts (nm : String) : ¬ (nm ++ ".ak") = ".." ∧ ¬ (nm ++ ".ak") = "" := by
  have hak : (".ak" : String).length = 3 := by decide
  have hdd : (".." : String).length = 2 := by decide
  have hem : ("" : String).length = 0 := by decide
  constructor
  · intro h
    have hlen := congrArg String.length h
    rw [String.length_append, hak, hdd] at hlen
    omega
  · intro h
    have hlen := congrArg String.length h
    rw [String.length_append, hak, hem] at hlen
    omega

/-- Claim C6: for identifier namespace and project name, `generate` returns
relative, forward-slash separated, pairwise-distinct paths without `..` or
empty segments, with the type module namespace-qualified under
`lib/<namespace>/<project_name>/` and the validator under `validators/`. -/
theorem generated_paths_wellformed (o : GenOptions)
    (hns : isIdent (o.«namespace».getD "myorg") = true)
    (hpn : isIdent (o.project_name.getD "my_contract") = true) :
    (generateFallback o).map GeneratedFile.path =
      ["aiken.toml",
       "lib/" ++ o.«namespace».getD "myorg" ++ "/" ++ o.project_name.getD "my_contract" ++ "/types.ak",
       "validators/" ++ o.project_name.getD "my_contract" ++ ".ak"] ∧
    ((generateFallback o).map GeneratedFile.path).Nodup ∧
    (∀ f ∈ generateFallback o, ∀ seg ∈ splitSlash f.path, ¬ seg = ".." ∧ ¬ seg = "") := by
  have h1 := ident_no_slash hns
  have h2 := ident_no_slash hpn
  have hpaths : (generateFallback o).map GeneratedFile.path =
      ["aiken.toml",
       "lib/" ++ o.«namespace».getD "myorg" ++ "/" ++ o.project_name.getD "my_contract" ++ "/types.ak",
       "validators/" ++ o.project_name.getD "my_contract" ++ ".ak"] := by
    simp [generateFallback]
  have ne12 : ("aiken.toml" : String) ≠
      "lib/" ++ o.«namespace».getD "myorg" ++ "/" ++ o.project_name.getD "my_contract" ++ "/types.ak" := by
    intro h
    rw [String.ext_iff] at h
    simp [String.data_append] at h
  have ne13 : ("aiken.toml" : String) ≠
      "validators/" ++ o.project_name.getD "my_contract" ++ ".ak" := by
    intro h
    rw [String.ext_iff] at h
    simp [String.data_append] at h
  have ne23 : "lib/" ++ o.«namespace».getD "myorg" ++ "/" ++ o.project_name.getD "my_contract" ++ "/types.ak" ≠
      "validators/" ++ o.project_name.getD "my_contract" ++ ".ak" := by
    intro h
    rw [String.ext_iff] at h
    simp [String.data_append] at h
  refine ⟨hpaths, ?_, ?_⟩
  · rw [hpaths]
    simp [List.nodup_cons, ne12, ne13, ne23]
  · intro f hf
    simp only [generateFallback, List.mem_cons, List.not_mem_nil, or_false] at hf
    rcases hf with rfl | rfl | rfl
    · intro seg hseg
      rw [show splitSlash "aiken.toml" = ["aiken.toml"] from by decide] at hseg
      rw [List.mem_singleton] at hseg
      rw [hseg]
      exact ⟨by decide, by decide⟩
    · intro seg hseg
      rw [show ({ path := "lib/" ++ o.«namespace».getD "myorg" ++ "/" ++ o.project_name.getD "my_contract" ++ "/types.ak",
                  content := generateTypesFile (o.template.getD "mint") o } : GeneratedFile).path =
            "lib/" ++ o.«namespace».getD "myorg" ++ "/" ++ o.project_name.getD "my_contract" ++ "/types.ak" from rfl,
          splitSlash_lib _ _ h1 h2] at hseg
      simp only [List.mem_cons, List.not_mem_nil, or_false] at hseg
      rcases hseg with rfl | rfl | rfl | rfl
      · exact ⟨by decide, by decide⟩
      · exact ident_facts hns
      · exact ident_facts hpn
      · exact ⟨by decide, by decide⟩
    · intro seg hseg
      rw [show ({ path := "validators/" ++ o.project_name.getD "my_contract" ++ ".ak",
                  content := generateValidatorFile (o.template.getD "mint") (o.«namespace».getD "myorg") (o.project_name.getD "my_contract") } : GeneratedFile).path =
            "validators/" ++ o.project_name.getD "my_contract" ++ ".ak" from rfl,
          splitSlash_validators _ h2] at hseg
      simp only [List.mem_cons, List.not_mem_nil, or_false] at hseg
      rcases hseg with rfl | rfl
      · exact ⟨by decide, by decide⟩
      · exact name_ak_facts _

theorem generated_paths_wellformed_witness :
    (isIdent ((⟨some "myorg", some "my_vesting", some "vesting", false, true, true⟩ : GenOptions).«namespace».getD "myorg") = true ∧
     isIdent ((⟨some "myorg", some "my_vesting", some "vesting", false, true, true⟩ : GenOptions).project_name.getD "my_contract") = true) ∧
    ((generateFallback ⟨some "myorg", some "my_vesting", some "vesting", false, true, true⟩).map GeneratedFile.path =
      ["aiken.toml",
       "lib/" ++ (⟨some "myorg", some "my_vesting", some "vesting", false, true, true⟩ : GenOptions).«namespace».getD "myorg" ++ "/" ++ (⟨some "myorg", some "my_vesting", some "vesting", false, true, true⟩ : GenOptions).project_name.getD "my_contract" ++ "/types.ak",
       "validators/" ++ (⟨some "myorg", some "my_vesting", some "vesting", false, true, true⟩ : GenOptions).project_name.getD "my_contract" ++ ".ak"] ∧
     ((generateFallback ⟨some "myorg", some "my_vesting", some "vesting", false, true, true⟩).map GeneratedFile.path).Nodup ∧
     (∀ f ∈ generateFallback ⟨some "myorg", some "my_vesting", some "vesting", false, true, true⟩,
        ∀ seg ∈ splitSlash f.path, ¬ seg = ".." ∧ ¬ seg = "")) :=
  ⟨⟨by decide, by decide⟩, generated_paths_wellformed _ (by decide) (by decide)⟩

/-! ## Claim C10: file tree -/

theorem tree_eta (n : TreeNode) : TreeNode.mk n.name n.fullPath n.path n.children = n := by
  cases n
  rfl

theorem countPath_nil (p : String) : countPath p [] = 0 := by simp [countPath]

theorem countPath_cons (p : String) (n : TreeNode) (ns : List TreeNode) :
    countPath p (n :: ns) =
      (if n.path = some p then 1 else 0) + countPath p n.children + countPath p ns := by
  cases n
  simp [countPath, TreeNode.path, TreeNode.children]

theorem nodesOk_nil : nodesOk [] = true := by simp [nodesOk]

theorem nodesOk_cons (n : TreeNode) (ns : List TreeNode) :
    nodesOk (n :: ns) =
      (((n.path = none) || n.children.isEmpty) && nodesOk n.children && nodesOk ns) := by
  cases n
  simp [nodesOk, TreeNode.path, TreeNode.children]

theorem hasChain_nil_parts (F : List TreeNode) : hasChain [] F = true := by
  cases F <;> simp [hasChain]

theorem hasChain_nil_forest (ps : List String) : hasChain ps [] = (ps.isEmpty) := by
  cases ps <;> simp [hasChain]

theorem hasChain_cons_cons (pn : String) (pr : List String) (n : TreeNode) (ns : List TreeNode) :
    hasChain (pn :: pr) (n :: ns) =
      (if n.name = pn then hasChain pr n.children else hasChain (pn :: pr) ns) := by
  cases n
  simp [hasChain, TreeNode.name, TreeNode.children]

theorem freeFor_nil_forest (ps : List String) : freeFor ps [] = true := by
  cases ps <;> simp [freeFor]

theorem freeFor_nil_parts (F : List TreeNode) : freeFor [] F = true := by
  cases F <;> simp [freeFor]

theorem freeFor_cons_cons (pn : String) (pr : List String) (n : TreeNode) (ns : List TreeNode) :
    freeFor (pn :: pr) (n :: ns) =
      (if n.name = pn then (pr.isEmpty || ((n.path = none) && freeFor pr n.children))
       else freeFor (pn :: pr) ns) := by
  cases n
  simp [freeFor, TreeNode.name, TreeNode.path, TreeNode.children]

theorem collectFolderPaths_nil : collectFolderPaths [] = [] := by simp [collectFolderPaths]

theorem collectFolderPaths_cons (n : TreeNode) (ns : List TreeNode) :
    collectFolderPaths (n :: ns) =
      (if n.path.isNone && !n.children.isEmpty then
        n.fullPath :: (collectFolderPaths n.children ++ collectFolderPaths ns)
       else collectFolderPaths ns) := by
  cases n
  simp [collectFolderPaths, TreeNode.path, TreeNode.children, TreeNode.fullPath]

theorem folderPathsSpec_nil : folderPathsSpec [] = [] := by simp [folderPathsSpec]

theorem folderPathsSpec_cons (n : TreeNode) (ns : List TreeNode) :
    folderPathsSpec (n :: ns) =
      ((if n.path.isNone && !n.children.isEmpty then [n.fullPath] else []) ++
        folderPathsSpec n.children ++ folderPathsSpec ns) := by
  cases n
  simp [folderPathsSpec, TreeNode.path, TreeNode.children, TreeNode.fullPath]

theorem insertInto_nil (name a : String) (lp : Option String) (k : List TreeNode → List TreeNode) :
    insertInto name a lp k [] = [TreeNode.mk name a lp (k [])] := rfl

theorem insertInto_cons (name a : String) (lp : Option String) (k : List TreeNode → List TreeNode)
    (n : TreeNode) (ns : List TreeNode) :
    insertInto name a lp k (n :: ns) =
      (if n.name = name then TreeNode.mk n.name n.fullPath n.path (k n.children) :: ns
       else n :: insertInto name a lp k ns) := rfl

theorem insertPath_nil (q acc : String) (F : List TreeNode) : insertPath q [] acc F = F := rfl

theorem insertPath_cons (q qn : String) (qrest : List String) (acc : String) (F : List TreeNode) :
    insertPath q (qn :: qrest) acc F =
      insertInto qn (if acc = "" then qn else acc ++ "/" ++ qn)
        (if qrest.isEmpty then some q else none)
        (fun ch => insertPath q qrest (if acc = "" then qn else acc ++ "/" ++ qn) ch) F := rfl

theorem name_mk (x y : String) (z : Option String) (w : List TreeNode) :
    (TreeNode.mk x y z w).name = x := rfl

theorem fullPath_mk (x y : String) (z : Option String) (w : List TreeNode) :
    (TreeNode.mk x y z w).fullPath = y := rfl

theorem path_mk (x y : String) (z : Option String) (w : List TreeNode) :
    (TreeNode.mk x y z w).path = z := rfl

theorem children_mk (x y : String) (z : Option String) (w : List TreeNode) :
    (TreeNode.mk x y z w).children = w := rfl

theorem insertInto_hasChain (qn a : String) (lp : Option String) (qrest : List String)
    (k : List TreeNode → List TreeNode)
    (hk : ∀ (ch : List TreeNode) (ps' : List String),
      hasChain ps' (k ch) = (hasChain ps' ch || ps'.isPrefixOf qrest)) :
    ∀ (F : List TreeNode) (ps : List String),
      hasChain ps (insertInto qn a lp k F) = (hasChain ps F || ps.isPrefixOf (qn :: qrest)) := by
  intro F
  induction F with
  | nil =>
      intro ps
      rw [insertInto_nil]
      cases ps with
      | nil => simp [hasChain_nil_parts, List.isPrefixOf]
      | cons pn pr =>
          rw [hasChain_cons_cons, name_mk, children_mk, hasChain_nil_forest]
          by_cases hpn : qn = pn
          · subst hpn
            rw [if_pos rfl, hk, hasChain_nil_forest]
            cases pr <;> simp [List.isPrefixOf]
          · rw [if_neg hpn]
            have hbeq : (pn == qn) = false := beq_eq_false_iff_ne.mpr (fun h => hpn h.symm)
            simp [List.isPrefixOf, hbeq]
  | cons n ns ih =>
      intro ps
      rw [insertInto_cons]
      by_cases hn : n.name = qn
      · rw [if_pos hn]
        cases ps with
        | nil => simp [hasChain_nil_parts]
        | cons pn pr =>
            rw [hasChain_cons_cons, hasChain_cons_cons, name_mk, children_mk]
            by_cases hpn : n.name = pn
            · rw [if_pos hpn, if_pos hpn, hk]
              have hbeq : (pn == qn) = true := beq_iff_eq.mpr (hpn ▸ hn)
              simp [List.isPrefixOf, hbeq]
            · rw [if_neg hpn, if_neg hpn]
              have hbeq : (pn == qn) = false :=
                beq_eq_false_iff_ne.mpr (fun h => hpn (hn.trans h.symm))
              simp [List.isPrefixOf, hbeq]
      · rw [if_neg hn]
        cases ps with
        | nil => simp [hasChain_nil_parts]
        | cons pn pr =>
            rw [hasChain_cons_cons, hasChain_cons_cons]
            by_cases hpn : n.name = pn
            · rw [if_pos hpn, if_pos hpn]
              have hbeq : (pn == qn) = false :=
                beq_eq_false_iff_ne.mpr (fun h => hn (hpn ▸ h))
              simp [List.isPrefixOf, hbeq]
            · rw [if_neg hpn, if_neg hpn, ih]

theorem insertPath_hasChain (q : String) :
    ∀ (qps : List String) (acc : String) (F : List TreeNode) (ps : List String),
      hasChain ps (insertPath q qps acc F) = (hasChain ps F || ps.isPrefixOf qps) := by
  intro qps
  induction qps with
  | nil =>
      intro acc F ps
      rw [insertPath_nil]
      cases ps with
      | nil => simp [hasChain_nil_parts, List.isPrefixOf]
      | cons pn pr => simp [List.isPrefixOf]
  | cons qn qrest ih =>
      intro acc F ps
      rw [insertPath_cons]
      exact insertInto_hasChain qn _ _ qrest _
        (fun ch ps' => ih (if acc = "" then qn else acc ++ "/" ++ qn) ch ps') F ps

theorem insertInto_countPath_other (p qn a : String) (lp : Option String)
    (k : List TreeNode → List TreeNode)
    (hk : ∀ ch, countPath p (k ch) = countPath p ch)
    (hlp : ¬ lp = some p) :
    ∀ F, countPath p (insertInto qn a lp k F) = countPath p F := by
  intro F
  induction F with
  | nil =>
      rw [insertInto_nil, countPath_cons, countPath_nil, path_mk, children_mk, if_neg hlp, hk]
      simp [countPath_nil]
  | cons n ns ih =>
      rw [insertInto_cons]
      by_cases hn : n.name = qn
      · rw [if_pos hn, countPath_cons, countPath_cons, path_mk, children_mk, hk]
      · rw [if_neg hn, countPath_cons, countPath_cons, ih]

theorem insertPath_countPath_other (p q : String) (hpq : ¬ p = q) :
    ∀ (qps : List String) (acc : String) (F : List TreeNode),
      countPath p (insertPath q qps acc F) = countPath p F := by
  intro qps
  induction qps with
  | nil => intro acc F; rw [insertPath_nil]
  | cons qn qrest ih =>
      intro acc F
      rw [insertPath_cons]
      refine insertInto_countPath_other p qn _ _ _ (fun ch => ih _ ch) ?_ F
      by_cases hq : qrest.isEmpty
      · rw [if_pos hq]
        intro h
        exact hpq (Option.some.inj h).symm
      · rw [if_neg hq]
        simp

theorem insertInto_countPath_leaf (p qn a : String)
    (k : List TreeNode → List TreeNode) (hk : ∀ ch, k ch = ch) :
    ∀ F, countPath p (insertInto qn a (some p) k F) =
      countPath p F + (if hasChain [qn] F then 0 else 1) := by
  intro F
  induction F with
  | nil =>
      rw [insertInto_nil, countPath_cons, countPath_nil, path_mk, children_mk, hk,
        countPath_nil, hasChain_nil_forest]
      simp
  | cons n ns ih =>
      rw [insertInto_cons]
      by_cases hn : n.name = qn
      · rw [if_pos hn, countPath_cons, countPath_cons, path_mk, children_mk, hk,
          hasChain_cons_cons, if_pos hn, hasChain_nil_parts]
        simp
      · rw [if_neg hn, countPath_cons, countPath_cons, ih, hasChain_cons_cons, if_neg hn]
        omega

theorem insertInto_countPath_inner (p qn a : String) (rest : List String)
    (hrest : ¬ rest = []) (k : List TreeNode → List TreeNode)
    (hk : ∀ ch, countPath p (k ch) = countPath p ch + (if hasChain rest ch then 0 else 1)) :
    ∀ F, countPath p (insertInto qn a none k F) =
      countPath p F + (if hasChain (qn :: rest) F then 0 else 1) := by
  intro F
  induction F with
  | nil =>
      rw [insertInto_nil, countPath_cons, countPath_nil, path_mk, children_mk, hk,
        countPath_nil, hasChain_nil_forest, hasChain_nil_forest]
      cases rest with
      | nil => exact absurd rfl hrest
      | cons r rs => simp
  | cons n ns ih =>
      rw [insertInto_cons]
      by_cases hn : n.name = qn
      · rw [if_pos hn, countPath_cons, countPath_cons, path_mk, children_mk, hk,
          hasChain_cons_cons, if_pos hn]
        omega
      · rw [if_neg hn, countPath_cons, countPath_cons, ih, hasChain_cons_cons, if_neg hn]
        omega

theorem insertPath_countPath_self (p : String) :
    ∀ (ps : List String), ¬ ps = [] → ∀ (acc : String) (F : List TreeNode),
      countPath p (insertPath p ps acc F) =
        countPath p F + (if hasChain ps F then 0 else 1) := by
  intro ps
  induction ps with
  | nil => intro h; exact absurd rfl h
  | cons pn pr ih =>
      intro _ acc F
      rw [insertPath_cons]
      cases hpr : pr with
      | nil =>
          have hleaf : (if ([] : List String).isEmpty then some p else none) = some p := rfl
          rw [hleaf]
          exact insertInto_countPath_leaf p pn _ _ (fun ch => rfl) F
      | cons r rs =>
          subst hpr
          have hinner : (if (r :: rs : List String).isEmpty then some p else none) = none := rfl
          rw [hinner]
          exact insertInto_countPath_inner p pn _ (r :: rs) (by simp)
            _ (fun ch => ih (by simp) _ ch) F

theorem insertInto_nodesOk (qn a : String) (lp : Option String) (rest : List String)
    (k : List TreeNode → List TreeNode)
    (hk : ∀ ch, nodesOk ch = true → freeFor rest ch = true → nodesOk (k ch) = true)
    (hnode : lp = none ∨ k [] = [])
    (hid : rest = [] → ∀ ch, k ch = ch) :
    ∀ F, nodesOk F = true → freeFor (qn :: rest) F = true →
      nodesOk (insertInto qn a lp k F) = true := by
  intro F
  induction F with
  | nil =>
      intro _ _
      rw [insertInto_nil, nodesOk_cons, path_mk, children_mk]
      have hknil : nodesOk (k []) = true := hk [] nodesOk_nil (freeFor_nil_forest rest)
      rcases hnode with hlp | hkn
      · simp [hlp, hknil, nodesOk_nil]
      · simp [hkn, nodesOk_nil]
  | cons n ns ih =>
      intro hok hfree
      rw [nodesOk_cons, Bool.and_eq_true, Bool.and_eq_true] at hok
      obtain ⟨⟨hhead, hchok⟩, hnsok⟩ := hok
      rw [insertInto_cons]
      by_cases hn : n.name = qn
      · rw [if_pos hn]
        rw [freeFor_cons_cons, if_pos hn] at hfree
        cases hrest : rest with
        | nil =>
            rw [hid hrest n.children, tree_eta]
            rw [nodesOk_cons, Bool.and_eq_true, Bool.and_eq_true]
            exact ⟨⟨hhead, hchok⟩, hnsok⟩
        | cons r rs =>
            rw [hrest] at hfree
            simp only [List.isEmpty_cons, Bool.false_or, Bool.and_eq_true] at hfree
            obtain ⟨hpath, hchfree⟩ := hfree
            rw [nodesOk_cons, path_mk, children_mk]
            have hpath' : n.path = none := by
              simpa using hpath
            have hkch : nodesOk (k n.children) = true := by
              rw [← hrest] at hchfree
              exact hk n.children hchok hchfree
            simp [hpath', hkch, hnsok]
      · rw [if_neg hn]
        rw [freeFor_cons_cons, if_neg hn] at hfree
        rw [nodesOk_cons, Bool.and_eq_true, Bool.and_eq_true]
        exact ⟨⟨hhead, hchok⟩, ih hnsok hfree⟩

theorem insertPath_nodesOk (q : String) :
    ∀ (qps : List String) (acc : String) (F : List TreeNode),
      nodesOk F = true → freeFor qps F = true →
      nodesOk (insertPath q qps acc F) = true := by
  intro qps
  induction qps with
  | nil => intro acc F hok _; rwa [insertPath_nil]
  | cons qn qrest ih =>
      intro acc F hok hfree
      rw [insertPath_cons]
      refine insertInto_nodesOk qn _ _ qrest _ (fun ch h1 h2 => ih _ ch h1 h2) ?_ ?_ F hok ?_
      · cases hq : qrest with
        | nil => exact Or.inr rfl
        | cons r rs => exact Or.inl rfl
      · intro hq ch
        rw [hq, insertPath_nil]
      · exact hfree

theorem insertInto_freeFor (qn a : String) (lp : Option String) (rest : List String)
    (k : List TreeNode → List TreeNode)
    (hk : ∀ ch ps', rest.isPrefixOf ps' = false → freeFor ps' ch = true → freeFor ps' (k ch) = true)
    (hlp : ¬ rest = [] → lp = none) :
    ∀ F ps, (qn :: rest).isPrefixOf ps = false → freeFor ps F = true →
      freeFor ps (insertInto qn a lp k F) = true := by
  intro F
  induction F with
  | nil =>
      intro ps hq _
      rw [insertInto_nil]
      cases ps with
      | nil => exact freeFor_nil_parts _
      | cons pn pr =>
          rw [freeFor_cons_cons, name_mk, path_mk, children_mk]
          by_cases hpn : qn = pn
          · rw [if_pos hpn]
            cases hpr : pr with
            | nil => simp
            | cons c cs =>
                subst hpn hpr
                simp only [List.isPrefixOf, beq_self_eq_true, Bool.true_and] at hq
                have hrest : ¬ rest = [] := by
                  intro h
                  rw [h] at hq
                  simp [List.isPrefixOf] at hq
                have hfr : freeFor (c :: cs) (k []) = true :=
                  hk [] (c :: cs) hq (freeFor_nil_forest _)
                simp [hlp hrest, hfr]
          · rw [if_neg hpn]
            exact freeFor_nil_forest _
  | cons n ns ih =>
      intro ps hq hfree
      rw [insertInto_cons]
      by_cases hn : n.name = qn
      · rw [if_pos hn]
        cases ps with
        | nil => exact freeFor_nil_parts _
        | cons pn pr =>
            rw [freeFor_cons_cons, name_mk, path_mk, children_mk]
            rw [freeFor_cons_cons] at hfree
            by_cases hpn : n.name = pn
            · rw [if_pos hpn]
              rw [if_pos hpn] at hfree
              cases hpr : pr with
              | nil => simp
              | cons c cs =>
                  subst hpr
                  simp only [List.isEmpty_cons, Bool.false_or, Bool.and_eq_true] at hfree
                  obtain ⟨hpath, hchfree⟩ := hfree
                  have hqq : pn = qn := hpn ▸ hn
                  subst hqq
                  simp only [List.isPrefixOf, beq_self_eq_true, Bool.true_and] at hq
                  have hfr : freeFor (c :: cs) (k n.children) = true :=
                    hk n.children (c :: cs) hq hchfree
                  simp only [List.isEmpty_cons, Bool.false_or, Bool.and_eq_true]
                  refine ⟨?_, hfr⟩
                  simpa using hpath
            · rw [if_neg hpn]
              rw [if_neg hpn] at hfree
              exact hfree
      · rw [if_neg hn]
        cases ps with
        | nil => exact freeFor_nil_parts _
        | cons pn pr =>
            rw [freeFor_cons_cons]
            rw [freeFor_cons_cons] at hfree
            by_cases hpn : n.name = pn
            · rw [if_pos hpn]
              rw [if_pos hpn] at hfree
              exact hfree
            · rw [if_neg hpn]
              rw [if_neg hpn] at hfree
              exact ih (pn :: pr) hq hfree

theorem insertPath_freeFor (q : String) :
    ∀ (qps : List String) (acc : String) (F : List TreeNode) (ps : List String),
      qps.isPrefixOf ps = false → freeFor ps F = true →
      freeFor ps (insertPath q qps acc F) = true := by
  intro qps
  induction qps with
  | nil =>
      intro acc F ps hq hfree
      rwa [insertPath_nil]
  | cons qn qrest ih =>
      intro acc F ps hq hfree
      rw [insertPath_cons]
      refine insertInto_freeFor qn _ _ qrest _
        (fun ch ps' h1 h2 => ih _ ch ps' h1 h2) ?_ F ps hq hfree
      intro hrest
      cases hc : qrest with
      | nil => exact absurd hc hrest
      | cons r rs => rfl


theorem forest_induction {motive : List TreeNode → Prop}
    (hnil : motive [])
    (hcons : ∀ (nm fp : String) (pa : Option String) (ch ns : List TreeNode),
      motive ch → motive ns → motive (TreeNode.mk nm fp pa ch :: ns)) :
    ∀ F, motive F := by
  have key : ∀ (k : Nat) (F : List TreeNode), sizeOf F ≤ k → motive F := by
    intro k
    induction k with
    | zero =>
        intro F hF
        cases F with
        | nil => exact hnil
        | cons n ns =>
            exfalso
            have : 0 < sizeOf (n :: ns) := by
              cases n
              simp
            omega
    | succ k ihk =>
        intro F hF
        cases F with
        | nil => exact hnil
        | cons n ns =>
            cases n with
            | mk nm fp pa ch =>
                have hsz : sizeOf (TreeNode.mk nm fp pa ch :: ns) =
                    1 + sizeOf (TreeNode.mk nm fp pa ch) + sizeOf ns := by simp
                have hsz2 : sizeOf (TreeNode.mk nm fp pa ch) =
                    1 + sizeOf nm + sizeOf fp + sizeOf pa + sizeOf ch := by simp
                apply hcons
                · apply ihk
                  omega
                · apply ihk
                  omega
  intro F
  exact key (sizeOf F) F le_rfl

theorem collect_eq_spec : ∀ F, nodesOk F = true → collectFolderPaths F = folderPathsSpec F := by
  intro F
  induction F using forest_induction with
  | hnil => intro _; rw [collectFolderPaths_nil, folderPathsSpec_nil]
  | hcons nm fp pa ch ns ihch ihns =>
      intro hok
      rw [nodesOk_cons, path_mk, children_mk, Bool.and_eq_true, Bool.and_eq_true] at hok
      obtain ⟨⟨hhead, hchok⟩, hnsok⟩ := hok
      rw [collectFolderPaths_cons, folderPathsSpec_cons, path_mk, children_mk, fullPath_mk]
      by_cases hcond : (pa.isNone && !ch.isEmpty) = true
      · rw [if_pos hcond, if_pos hcond, ihch hchok, ihns hnsok]
        simp
      · rw [if_neg hcond, if_neg hcond]
        have hchnil : ch = [] := by
          by_cases hch : ch.isEmpty = true
          · exact List.isEmpty_iff.mp hch
          · exfalso
            rcases Bool.or_eq_true _ _ |>.mp hhead with hpa | hemp
            · apply hcond
              have hpa' : pa = none := by simpa using hpa
              simp [hpa', hch]
            · exact hch hemp
        rw [hchnil, folderPathsSpec_nil, ihns hnsok]
        simp

theorem isPrefixOf_self (l : List String) : l.isPrefixOf l = true :=
  List.isPrefixOf_iff_prefix.mpr (List.prefix_refl l)

theorem buildTree_aux :
    ∀ (files : List GeneratedFile) (F : List TreeNode),
      files.Pairwise (fun f g =>
        (splitSlash f.path).isPrefixOf (splitSlash g.path) = false ∧
        (splitSlash g.path).isPrefixOf (splitSlash f.path) = false) →
      nodesOk F = true →
      (∀ f ∈ files, hasChain (splitSlash f.path) F = false) →
      (∀ f ∈ files, countPath f.path F = 0) →
      (∀ f ∈ files, freeFor (splitSlash f.path) F = true) →
      (nodesOk (files.foldl (fun root file => insertPath file.path (splitSlash file.path) "" root) F) = true ∧
       (∀ p, (∀ f ∈ files, ¬ f.path = p) →
          countPath p (files.foldl (fun root file => insertPath file.path (splitSlash file.path) "" root) F) = countPath p F) ∧
       (∀ f ∈ files, countPath f.path (files.foldl (fun root file => insertPath file.path (splitSlash file.path) "" root) F) = 1)) := by
  intro files
  induction files with
  | nil =>
      intro F _ hok _ _ _
      exact ⟨hok, fun p _ => rfl, fun f hf => absurd hf (List.not_mem_nil f)⟩
  | cons f fs ih =>
      intro F hpw hok hchain hcount hfree
      rw [List.pairwise_cons] at hpw
      obtain ⟨hhead, htail⟩ := hpw
      rw [List.foldl_cons]
      have hokF' : nodesOk (insertPath f.path (splitSlash f.path) "" F) = true :=
        insertPath_nodesOk _ _ _ _ hok (hfree f (List.mem_cons_self f fs))
      have hneq : ∀ g ∈ fs, ¬ g.path = f.path := by
        intro g hg he
        have h1 := (hhead g hg).1
        rw [he] at h1
        rw [isPrefixOf_self] at h1
        exact Bool.true_eq_false.mp h1
      have hchain' : ∀ g ∈ fs,
          hasChain (splitSlash g.path) (insertPath f.path (splitSlash f.path) "" F) = false := by
        intro g hg
        rw [insertPath_hasChain, hchain g (List.mem_cons_of_mem f hg), (hhead g hg).2]
        rfl
      have hcount' : ∀ g ∈ fs,
          countPath g.path (insertPath f.path (splitSlash f.path) "" F) = 0 := by
        intro g hg
        rw [insertPath_countPath_other g.path f.path (hneq g hg)]
        exact hcount g (List.mem_cons_of_mem f hg)
      have hfree' : ∀ g ∈ fs,
          freeFor (splitSlash g.path) (insertPath f.path (splitSlash f.path) "" F) = true := by
        intro g hg
        exact insertPath_freeFor _ _ _ _ _ (hhead g hg).1
          (hfree g (List.mem_cons_of_mem f hg))
      obtain ⟨hokAll, hpres, hones⟩ := ih _ htail hokF' hchain' hcount' hfree'
      refine ⟨hokAll, ?_, ?_⟩
      · intro p hp
        rw [hpres p (fun g hg => hp g (List.mem_cons_of_mem f hg))]
        exact insertPath_countPath_other p f.path
          (fun he => hp f (List.mem_cons_self f fs) he.symm) _ _ _
      · intro g hg
        rcases List.mem_cons.mp hg with rfl | hg
        · rw [hpres g.path (fun g' hg' => hneq g' hg')]
          rw [insertPath_countPath_self g.path (splitSlash g.path)
            (splitSlash_ne_nil g.path) "" F]
          rw [hcount g (List.mem_cons_self g fs), hchain g (List.mem_cons_self g fs)]
          rfl
        · exact hones g hg

/-- Claim C10 (amended): for generated-file lists whose slash-split paths are
pairwise non-prefix of one another (hence pairwise distinct), `buildTree`
contains exactly one node whose `path` field equals each input file's path,
and `collectFolderPaths` returns exactly the full paths of the nodes that have
children and no `path` field (`folderPathsSpec`). -/
theorem buildTree_unique_paths_and_folders (files : List GeneratedFile)
    (h : files.Pairwise (fun f g =>
      (splitSlash f.path).isPrefixOf (splitSlash g.path) = false ∧
      (splitSlash g.path).isPrefixOf (splitSlash f.path) = false)) :
    (∀ f ∈ files, countPath f.path (buildTree files) = 1) ∧
    collectFolderPaths (buildTree files) = folderPathsSpec (buildTree files) := by
  have hchain0 : ∀ f ∈ files, hasChain (splitSlash f.path) [] = false := by
    intro f _
    rw [hasChain_nil_forest]
    cases hs : splitSlash f.path with
    | nil => exact absurd hs (splitSlash_ne_nil f.path)
    | cons a b => rfl
  have hcount0 : ∀ f ∈ files, countPath f.path [] = 0 := fun f _ => countPath_nil _
  have hfree0 : ∀ f ∈ files, freeFor (splitSlash f.path) [] = true :=
    fun f _ => freeFor_nil_forest _
  obtain ⟨hok, _, hones⟩ := buildTree_aux files [] h nodesOk_nil hchain0 hcount0 hfree0
  exact ⟨hones, collect_eq_spec _ hok⟩

/-- Claim C10 counterexample: the two paths `a/b` and `a` are distinct, yet
after `buildTree` no node at all carries the path `a` -- the file whose path
is a directory prefix of another file's path is dropped. -/
theorem buildTree_drops_prefix_file_cex :
    ¬ (⟨"a/b", "1"⟩ : GeneratedFile) = (⟨"a", "2"⟩ : GeneratedFile) ∧
    countPath "a" (buildTree [⟨"a/b", "1"⟩, ⟨"a", "2"⟩]) = 0 := by
  constructor
  · intro h
    exact absurd (congrArg GeneratedFile.path h) (by decide)
  · have ht : buildTree [⟨"a/b", "1"⟩, ⟨"a", "2"⟩] =
        [TreeNode.mk "a" "a" none [TreeNode.mk "b" "a/b" (some "a/b") []]] := rfl
    rw [ht]
    simp [countPath_cons, countPath_nil, path_mk, children_mk]

theorem buildTree_unique_paths_and_folders_witness :
    ([⟨"aiken.toml", "m"⟩, ⟨"lib/a/types.ak", "t"⟩] : List GeneratedFile).Pairwise (fun f g =>
      (splitSlash f.path).isPrefixOf (splitSlash g.path) = false ∧
      (splitSlash g.path).isPrefixOf (splitSlash f.path) = false) ∧
    ((∀ f ∈ ([⟨"aiken.toml", "m"⟩, ⟨"lib/a/types.ak", "t"⟩] : List GeneratedFile),
        countPath f.path (buildTree [⟨"aiken.toml", "m"⟩, ⟨"lib/a/types.ak", "t"⟩]) = 1) ∧
     collectFolderPaths (buildTree [⟨"aiken.toml", "m"⟩, ⟨"lib/a/types.ak", "t"⟩]) =
       folderPathsSpec (buildTree [⟨"aiken.toml", "m"⟩, ⟨"lib/a/types.ak", "t"⟩])) :=
  ⟨by decide, buildTree_unique_paths_and_folders _ (by decide)⟩
